import Mathlib

/-!
Verification development for the batched broadcast-aware matrix
multiplication operator of `src/core/src/ops/math/mat_mul.rs`.

Tensors are embedded as flat element lists in row-major order together
with their shapes.  The element type is `Int`: the Rust code is generic
over a `LinalgScalar` element type and all claims under study are about
shape, stride and index arithmetic, which is identical at every element
type; exact `Int` arithmetic therefore witnesses the "within floating
tolerance" equalities as exact equalities.

The injected collaborators that are not part of the repository
(`crate::broadcast::multi_broadcast`, the `tract_linalg` MMM microkernel
and the successor op types consumed by `fuse`) are modelled from the
spec and marked as such in their doc comments.
-/

namespace MatMulSpec

/-- Modelled from the spec: `crate::broadcast::multi_broadcast` (module
`crate::broadcast`, not under `src/`).  Per spec §4.1 step 4: for each
axis the dims must be equal or one of them 1; the result is the non-1
dim; otherwise broadcasting fails. -/
def multi_broadcast : List Nat → List Nat → Option (List Nat)
  | [], [] => some []
  | a :: ta, b :: tb =>
      match multi_broadcast ta tb with
      | none => none
      | some rest =>
          if a = b then some (a :: rest)
          else if a = 1 then some (b :: rest)
          else if b = 1 then some (a :: rest)
          else none
  | _, _ => none

/-- `if ashape.len() < 2 { ashape.insert(0, D::one()) }` -/
def normalizeA (ashape : List Nat) : List Nat :=
  if ashape.length < 2 then 1 :: ashape else ashape

/-- `if bshape.len() < 2 { bshape.push(D::one()) }` -/
def normalizeB (bshape : List Nat) : List Nat :=
  if bshape.length < 2 then bshape ++ [1] else bshape

/-- The two `while` loops of `infer_shapes`: left-pad the shorter shape
with 1s until the ranks match. -/
def padTo (r : Nat) (s : List Nat) : List Nat :=
  List.replicate (r - s.length) 1 ++ s

/-- `infer_shapes` from `mat_mul.rs`: normalize ranks, left-pad, multi-
broadcast the prefixes, and append `[a[-2], b[-1]]`.  Note that the
source performs no check relating `a[-1]` and `b[-2]`. -/
def infer_shapes (ashape bshape : List Nat) :
    Option (List Nat × List Nat × List Nat) :=
  let a1 := normalizeA ashape
  let b1 := normalizeB bshape
  let r := max a1.length b1.length
  let a2 := padTo r a1
  let b2 := padTo r b1
  if r < 2 then none else -- `&ashape[..len - 2]` panics when both operands are rank 0
  match multi_broadcast (a2.take (a2.length - 2)) (b2.take (b2.length - 2)) with
  | none => none
  | some cprefix =>
      some (a2, b2,
        cprefix ++ [a2.getD (a2.length - 2) 1, b2.getD (b2.length - 1) 1])

/-- The `Geo` struct of `mat_mul.rs` (the unused `*_stride_prefix`
fields and the `mm` capability handle are omitted; the strides actually
used by the evaluators are recomputed from the views, see `eval_t`). -/
structure Geo where
  m : Nat
  k : Nat
  n : Nat
  bc_a_shape : List Nat
  bc_b_shape : List Nat
  c_shape : List Nat
  c_shape_prefix : List Nat
deriving Repr, DecidableEq

/-- `Geo::new` -/
def Geo.new (a_shape b_shape : List Nat) : Option Geo :=
  match infer_shapes a_shape b_shape with
  | none => none
  | some (bcA, bcB, bcC) =>
      some { m := bcA.getD (bcA.length - 2) 1
             k := bcA.getD (bcA.length - 1) 1
             n := bcB.getD (bcB.length - 1) 1
             bc_a_shape := bcA
             bc_b_shape := bcB
             c_shape := bcC
             c_shape_prefix := bcC.take (bcC.length - 2) }

/-- Row-major element strides of a shape, as `ndarray` computes them for
a standard (contiguous) array: the stride of an axis is the product of
all later dims. -/
def rowMajorStrides : List Nat → List Nat
  | [] => []
  | _ :: rest => rest.prod :: rowMajorStrides rest

/-- `ndarray::indices(shape)`: all multi-indices of a shape, enumerated
in row-major order. -/
def indicesOf : List Nat → List (List Nat)
  | [] => [[]]
  | d :: rest => (List.range d).flatMap (fun i => (indicesOf rest).map (i :: ·))

/-- Base offset of the view obtained by `slice_axis_inplace(axis, d..=d)`
with `d = dim.min(shape[axis] - 1)` over every prefix axis — the
broadcast-by-clamping slicing of `eval_t`'s batch loop.  Slicing does
not change the strides of the remaining axes, so the view is fully
described by this offset plus the original strides. -/
def sliceOffset : List Nat → List Nat → List Nat → Nat
  | p :: ps, d :: ds, s :: ss => min p (d - 1) * s + sliceOffset ps ds ss
  | _, _, _ => 0

/-- Base offset of the view sliced at exactly the cell index (used for
the output C, which is never broadcast). -/
def exactOffset : List Nat → List Nat → Nat
  | p :: ps, s :: ss => p * s + exactOffset ps ss
  | _, _ => 0

/-- Modelled from the spec: a packed operand.  `pack(dst, src,
row_stride, col_stride)` reformats the source submatrix whose `(r, c)`
entry sits at `src[off + r·row_stride + c·col_stride]` into the opaque
packed layout; the packed buffer therefore denotes exactly that entry
function, which is how it is embedded here.  Out-of-range flat indices
read the default 0 (the claims under study never depend on them: equal
index arithmetic gives equal reads). -/
def packedMat (src : List Int) (off : Nat) (rowStride colStride : Nat)
    (r c : Nat) : Int :=
  src.getD (off + r * rowStride + c * colStride) 0

/-- `tract_linalg::mmm::FusedSpec` (injected; constructors per the
spec's post-op list). -/
inductive FusedSpec where
  | PerColMul (v : List Int)
  | PerColAdd (v : List Int)
  | Min (s : Int)
  | Max (s : Int)
deriving Repr, DecidableEq

/-- Modelled from the spec: effect of one post-op on the accumulator of
column `j`. -/
def applyFused1 (j : Nat) (x : Int) : FusedSpec → Int
  | .PerColMul v => x * v.getD j 0
  | .PerColAdd v => x + v.getD j 0
  | .Min s => min x s
  | .Max s => max x s

/-- Post-ops apply in list order after the multiply-accumulate. -/
def applyFused (post : List FusedSpec) (j : Nat) (x : Int) : Int :=
  post.foldl (applyFused1 j) x

/-- Modelled from the spec: `mm.run(packed_a, packed_b, c, post_ops)`
computes `C[i,j] = Σ_l A[i,l]·B[l,j]` and then applies the post-ops in
order.  The kernel writes one `m×n` tile through the strided C operand;
since every evaluator hands it the row-major strides `(n, 1)` of a
contiguous region, the tile is embedded as that region's row-major
element list. -/
def mmRun (m k n : Nat) (A B : Nat → Nat → Int) (post : List FusedSpec) :
    List Int :=
  (List.range m).flatMap (fun i =>
    (List.range n).map (fun j =>
      applyFused post j (((List.range k).map (fun l => A i l * B l j)).sum)))

/-- `eval_t` from `mat_mul.rs`: build the geometry, then for every batch
cell of `c_shape_prefix` slice A and B with the clamping rule, pack the
trailing two axes with the view strides, and run the microkernel into
the C cell.  The C cells are written in row-major cell order at offset
`exactOffset`, which tiles the output contiguously, so the result is the
concatenation of the per-cell tiles (`evalData`).  `eval_t` itself
builds the geometry and pairs the data with `c_shape`. -/
def evalData (aData bData : List Int) (geo : Geo) : List Int :=
  let aStrides := rowMajorStrides geo.bc_a_shape
  let bStrides := rowMajorStrides geo.bc_b_shape
  let r := geo.c_shape.length
  (indicesOf geo.c_shape_prefix).flatMap (fun p =>
    mmRun geo.m geo.k geo.n
      (packedMat aData (sliceOffset p geo.bc_a_shape aStrides)
        (aStrides.getD (r - 2) 0) (aStrides.getD (r - 1) 0))
      (packedMat bData (sliceOffset p geo.bc_b_shape bStrides)
        (bStrides.getD (r - 2) 0) (bStrides.getD (r - 1) 0))
      [])

def eval_t (aData bData : List Int) (aShape bShape : List Nat) :
    Option (List Nat × List Int) :=
  match Geo.new aShape bShape with
  | none => none
  | some geo => some (geo.c_shape, evalData aData bData geo)

/-- `MatMulUnaryImplASimpleB` (the `mm` handle is carried by `geo`; the
packed B buffer is embedded as the matrix it denotes). -/
structure MatMulUnaryImplASimpleB where
  geo : Geo
  packed_b : Nat → Nat → Int
  a_shape : List Nat
  c_shape : List Nat
  non_linear : List FusedSpec

/-- `MatMulUnaryImplASimpleB::new`: external geometry over the true
shapes, internal geometry over `[a_len / k, k] × b_shape`, B packed once
with B's own strides.  The source asserts `b.ndim() == 2` (a panic,
modelled as `none`) and `a_len / geo_ext.k` panics when `k == 0`
(division by zero on `usize`), also modelled as `none`. -/
def MatMulUnaryImplASimpleB.new (a_shape : List Nat) (bData : List Int)
    (bShape : List Nat) : Option MatMulUnaryImplASimpleB :=
  if bShape.length ≠ 2 then none
  else match Geo.new a_shape bShape with
  | none => none
  | some geoExt =>
      if geoExt.k = 0 then none
      else
        let a_len := a_shape.prod
        let shape_a_internal := [a_len / geoExt.k, geoExt.k]
        match Geo.new shape_a_internal bShape with
        | none => none
        | some geo =>
            let bStrides := rowMajorStrides bShape
            some { geo := geo
                   packed_b := packedMat bData 0 (bStrides.getD 0 0) (bStrides.getD 1 0)
                   a_shape := a_shape
                   c_shape := geoExt.c_shape
                   non_linear := [] }

/-- `MatMulUnaryImplASimpleB::eval`: treat A's memory as
`[m_internal, k]` row-major (pack with strides `(k, 1)`), run the
microkernel once against the cached packed B with the `non_linear`
post-ops, writing C row-major with strides `(n, 1)`. -/
def MatMulUnaryImplASimpleB.eval (self : MatMulUnaryImplASimpleB)
    (aData : List Int) : List Nat × List Int :=
  (self.c_shape,
   mmRun self.geo.m self.geo.k self.geo.n
     (packedMat aData 0 self.geo.k 1)
     self.packed_b
     self.non_linear)

/-- Modelled from the spec: the successor node inspected by `fuse`.
The source downcasts the successor op to `crate::ops::binary::UnaryAOp`
(an elementwise binary against a constant `b` whose `mini_op` is tested
for `Mul` / `Add`), `ScalarMax { max }`, `ScalarMin { min }` or
`ScalarMinMax { min, max }`; none of those types is under `src/`.  Per
spec §4.6, `ScalarMinMax`'s `min` field is the scalar argument of the
`min` operation (the upper clamp bound) and `max` the argument of `max`
(the lower bound): clamping to `[0, 1]` appends `Min(1), Max(0)`.
`other` stands for any successor matching none of the downcasts. -/
inductive SuccOp where
  | unaryMul (bShape : List Nat) (bData : List Int)
  | unaryAdd (bShape : List Nat) (bData : List Int)
  | scalarMax (max : Int)
  | scalarMin (min : Int)
  | scalarMinMax (min max : Int)
  | other
deriving Repr, DecidableEq

/-- The inner closure of `MatMulUnaryImplASimpleB::fuse`: the fusion
table.  An elementwise multiply/add fuses only when the constant's shape
is exactly `[n]` (`op.b.shape() == &[self.geo.n]`). -/
def fusedMicroOp (n : Nat) : SuccOp → Option (List FusedSpec)
  | .unaryMul bShape bData =>
      if bShape = [n] then some [.PerColMul bData] else none
  | .unaryAdd bShape bData =>
      if bShape = [n] then some [.PerColAdd bData] else none
  | .scalarMax v => some [.Max v]
  | .scalarMin v => some [.Min v]
  | .scalarMinMax mn mx => some [.Min mn, .Max mx]
  | .other => none

/-- `MatMulUnaryImplASimpleB::fuse`: when the node has a single
successor that matches the fusion table, return the patched op with the
appended post-ops (`Self { non_linear: ops, ..self.clone() }`); in every
other case return no patch.  The function is total: a non-matching
successor is not an error. -/
def MatMulUnaryImplASimpleB.fuse (self : MatMulUnaryImplASimpleB)
    (succ : Option SuccOp) : Option MatMulUnaryImplASimpleB :=
  match succ with
  | none => none
  | some s =>
      match fusedMicroOp self.geo.n s with
      | none => none
      | some ops => some { self with non_linear := self.non_linear ++ ops }

/-- `TranslationInvariant { axis, period }` (declared in the graph
layer, consumed here). -/
structure TranslationInvariant where
  axis : Nat
  period : Nat
deriving Repr, DecidableEq

/-- `MatMulUnaryA::translation_invariants`: `a_rank` is the rank of the
node's output fact; if B's rank exceeds it, report nothing; otherwise
left-pad B's shape with 1s to `a_rank`, report one invariant per batch
axis with period the broadcasted-B dim there, then the M axis
(`a_rank - 2`) with period 1. -/
def translation_invariants (bShape : List Nat) (aRank : Nat) :
    List TranslationInvariant :=
  if aRank < bShape.length then []
  else
    let broadcasted_b_shape := List.replicate (aRank - bShape.length) 1 ++ bShape
    ((List.range (aRank - 2)).map
      (fun axis => TranslationInvariant.mk axis (broadcasted_b_shape.getD axis 1)))
      ++ [TranslationInvariant.mk (aRank - 2) 1]

/-- `MatMulUnaryA::pulsify`: bail when the pulse axis is the innermost
axis of the input fact (`fact.axis >= fact.shape.len() - 1`), otherwise
recompute the pulse-window shape and the full-stream dim through
`infer_shapes`.  `streamShape` stands for `fact.streaming_shape()`
(external), `factShape` for `fact.shape`. -/
def pulsify (bShape : List Nat) (factAxis : Nat) (factShape : List Nat)
    (streamShape : List Nat) : Except String (List Nat × Nat) :=
  if factShape.length - 1 ≤ factAxis then
    .error "Can not pulsify MatMulUnaryA on the most inner dimension (k)"
  else
    match infer_shapes factShape bShape, infer_shapes streamShape bShape with
    | some (_, _, cshapePulse), some (_, _, cshapeFull) =>
        .ok (cshapePulse, cshapeFull.getD factAxis 1)
    | _, _ => .error "Could not broadcast"

/-- The cost kind `Cost::FMA` (the datum-type tag is irrelevant to the
count and omitted). -/
inductive Cost where
  | FMA
deriving Repr, DecidableEq

/-- `MatMul::cost`: infer shapes, multiply the C dims skipping the last
two (the source folds them in reverse order), times `m`, `k`, `n`. -/
def cost (aShape bShape : List Nat) : Option (List (Cost × Nat)) :=
  match infer_shapes aShape bShape with
  | none => none
  | some (bcA, bcB, bcC) =>
      let mul := (bcC.reverse.drop 2).prod
      let m := bcA.getD (bcA.length - 2) 1
      let k := bcA.getD (bcA.length - 1) 1
      let n := bcB.getD (bcB.length - 1) 1
      some [(Cost.FMA, mul * m * k * n)]

/-- Row `t` of the product of A — read as a `[·, k]` row-major matrix —
with B, used to relate the collapsed and the per-cell evaluators. -/
def rowBlock (aD : List Int) (B : Nat → Nat → Int) (k n t : Nat) : List Int :=
  (List.range n).map (fun j =>
    ((List.range k).map (fun l => aD.getD (t * k + l) 0 * B l j)).sum)

/-- A concrete `1×1·1×1` `MatMulUnaryImplASimpleB` instance, used to
evaluate the fusion claims at a concrete operator. -/
def sampleOp : MatMulUnaryImplASimpleB where
  geo := { m := 1, k := 1, n := 1, bc_a_shape := [1, 1], bc_b_shape := [1, 1],
           c_shape := [1, 1], c_shape_prefix := [] }
  packed_b := packedMat [1] 0 1 1
  a_shape := [1, 1]
  c_shape := [1, 1]
  non_linear := []

/-- The concrete geometry of a `2×2 · 2×2` multiplication, used to
evaluate the batch-loop slicing claim at a concrete input. -/
def geo22 : Geo where
  m := 2
  k := 2
  n := 2
  bc_a_shape := [2, 2]
  bc_b_shape := [2, 2]
  c_shape := [2, 2]
  c_shape_prefix := []

section Lemmas

theorem multi_broadcast_length {x y z : List Nat}
    (h : multi_broadcast x y = some z) :
    z.length = x.length ∧ x.length = y.length := by
  induction x generalizing y z with
  | nil =>
      cases y with
      | nil => simp [multi_broadcast] at h; simp [← h]
      | cons b tb => simp [multi_broadcast] at h
  | cons a ta ih =>
      cases y with
      | nil => simp [multi_broadcast] at h
      | cons b tb =>
          simp only [multi_broadcast] at h
          cases hrec : multi_broadcast ta tb with
          | none => rw [hrec] at h; simp at h
          | some rest =>
              rw [hrec] at h
              dsimp only at h
              obtain ⟨h1, h2⟩ := ih hrec
              by_cases hab : a = b
              · rw [if_pos hab] at h
                cases h; simp [h1, h2]
              · rw [if_neg hab] at h
                by_cases ha1 : a = 1
                · rw [if_pos ha1] at h
                  cases h; simp [h1, h2]
                · rw [if_neg ha1] at h
                  by_cases hb1 : b = 1
                  · rw [if_pos hb1] at h
                    cases h; simp [h1, h2]
                  · rw [if_neg hb1] at h; cases h

theorem multi_broadcast_replicate_right (s : List Nat) :
    multi_broadcast s (List.replicate s.length 1) = some s := by
  induction s with
  | nil => rfl
  | cons d t ih =>
      simp only [List.length_cons, List.replicate_succ, multi_broadcast, ih]
      by_cases hd : d = 1 <;> simp [hd]

theorem multi_broadcast_replicate_left (s : List Nat) :
    multi_broadcast (List.replicate s.length 1) s = some s := by
  induction s with
  | nil => rfl
  | cons d t ih =>
      simp only [List.length_cons, List.replicate_succ, multi_broadcast, ih]
      by_cases hd : d = 1 <;> simp [hd]

theorem getD_append_left {α : Type} (l l' : List α) (d : α) (n : Nat)
    (h : n < l.length) : (l ++ l').getD n d = l.getD n d :=
  List.getD_append l l' d n h

theorem getD_append_self {α : Type} (l l' : List α) (d : α) :
    (l ++ l').getD l.length d = l'.getD 0 d := by
  rw [List.getD_append_right l l' d l.length (le_refl _), Nat.sub_self]

theorem getD_append_self_succ {α : Type} (l l' : List α) (d : α) :
    (l ++ l').getD (l.length + 1) d = l'.getD 1 d := by
  rw [List.getD_append_right l l' d _ (Nat.le_succ_of_le (le_refl _))]
  congr 1
  omega

/-- `infer_shapes` on two shapes of rank ≥ 2 with equal-length batch
prefixes: no normalization or padding happens, the prefixes are
broadcast and `[m, n]` is appended.  The trailing dims `k` (of A) and
`k'` (of B) are not compared at all. -/
theorem infer_shapes_append {apre bpre : List Nat}
    (h : apre.length = bpre.length) (m k k' n : Nat) :
    infer_shapes (apre ++ [m, k]) (bpre ++ [k', n]) =
      (multi_broadcast apre bpre).map
        (fun cpre => (apre ++ [m, k], bpre ++ [k', n], cpre ++ [m, n])) := by
  have la : (apre ++ [m, k]).length = apre.length + 2 := by simp
  have lb : (bpre ++ [k', n]).length = bpre.length + 2 := by simp
  have hA : normalizeA (apre ++ [m, k]) = apre ++ [m, k] := by
    simp [normalizeA, la]
  have hB : normalizeB (bpre ++ [k', n]) = bpre ++ [k', n] := by
    simp [normalizeB, lb]
  have hmax : max (apre ++ [m, k]).length (bpre ++ [k', n]).length
      = apre.length + 2 := by simp [la, lb, h]
  have hpadA : padTo (apre.length + 2) (apre ++ [m, k]) = apre ++ [m, k] := by
    simp [padTo, la]
  have hpadB : padTo (apre.length + 2) (bpre ++ [k', n]) = bpre ++ [k', n] := by
    simp [padTo, lb, h]
  have htakeA : (apre ++ [m, k]).take ((apre ++ [m, k]).length - 2) = apre := by
    rw [la, Nat.add_sub_cancel, List.take_left' rfl]
  have htakeB : (bpre ++ [k', n]).take ((bpre ++ [k', n]).length - 2) = bpre := by
    rw [lb, Nat.add_sub_cancel, List.take_left' rfl]
  have hm : (apre ++ [m, k]).getD ((apre ++ [m, k]).length - 2) 1 = m := by
    rw [la, Nat.add_sub_cancel, getD_append_self]; rfl
  have hn : (bpre ++ [k', n]).getD ((bpre ++ [k', n]).length - 1) 1 = n := by
    have : (bpre ++ [k', n]).length - 1 = bpre.length + 1 := by simp
    rw [this, getD_append_self_succ]; rfl
  simp only [infer_shapes, hA, hB, hmax, hpadA, hpadB, htakeA, htakeB, hm, hn]
  have h2 : ¬ apre.length + 2 < 2 := by omega
  simp only [h2, if_false]
  cases hmb : multi_broadcast apre bpre <;> simp [hmb]

theorem getD_replicate_append (q : Nat) (s : List Nat) (i : Nat) :
    (List.replicate q 1 ++ s).getD i 1 = if i < q then 1 else s.getD (i - q) 1 := by
  rw [List.getD_eq_getElem?_getD, List.getElem?_append]
  by_cases h : i < q
  · simp [List.getElem?_replicate, h]
  · simp [List.getElem?_replicate, h, List.getD_eq_getElem?_getD]

theorem getD_map_range_append {α : Type} (N : Nat) (f : Nat → α) (t : List α)
    (d : α) (i : Nat) (h : i < N) :
    (((List.range N).map f) ++ t).getD i d = f i := by
  rw [List.getD_eq_getElem?_getD, List.getElem?_append, if_pos (by simp [h]),
    List.getElem?_map, List.getElem?_range h]
  rfl

theorem getD_map_range_append_last {α : Type} (N : Nat) (f : Nat → α)
    (x : α) (d : α) :
    (((List.range N).map f) ++ [x]).getD N d = x := by
  rw [List.getD_eq_getElem?_getD, List.getElem?_append_right (by simp)]
  simp

theorem length_flatMap_const {α β : Type} (l : List α) (f : α → List β)
    (c : Nat) (h : ∀ a ∈ l, (f a).length = c) :
    (l.flatMap f).length = l.length * c := by
  rw [List.length_flatMap]
  rw [show l.map (List.length ∘ f) = l.map (Function.const α c) from
    List.map_congr_left (fun a ha => h a ha)]
  rw [List.map_const, List.sum_replicate, smul_eq_mul]

theorem indicesOf_length (s : List Nat) : (indicesOf s).length = s.prod := by
  induction s with
  | nil => rfl
  | cons d rest ih =>
      show ((List.range d).flatMap _).length = _
      rw [length_flatMap_const _ _ rest.prod (fun i _ => by simp [ih])]
      simp [List.prod_cons]

theorem mmRun_length (m k n : Nat) (A B : Nat → Nat → Int)
    (post : List FusedSpec) : (mmRun m k n A B post).length = m * n := by
  unfold mmRun
  rw [length_flatMap_const _ _ n (fun i _ => by simp)]
  simp

theorem padTo_length (r : Nat) (s : List Nat) :
    (padTo r s).length = max r s.length := by
  simp [padTo]
  omega

/-- Inversion of a successful `infer_shapes` run: the normalized shapes
have equal rank ≥ 2, their prefixes broadcast, and `c_shape` is the
broadcast prefix followed by `[a[-2], b[-1]]`. -/
theorem infer_shapes_inv {aS bS bcA bcB cs : List Nat}
    (h : infer_shapes aS bS = some (bcA, bcB, cs)) :
    2 ≤ bcA.length ∧ bcA.length = bcB.length ∧
    ∃ cpre,
      multi_broadcast (bcA.take (bcA.length - 2)) (bcB.take (bcB.length - 2))
        = some cpre ∧
      cpre.length = bcA.length - 2 ∧
      cs = cpre ++ [bcA.getD (bcA.length - 2) 1, bcB.getD (bcB.length - 1) 1] := by
  simp only [infer_shapes] at h
  set a1 := normalizeA aS with ha1
  set b1 := normalizeB bS with hb1
  set r := max a1.length b1.length with hr
  have hla : (padTo r a1).length = r := by rw [padTo_length]; omega
  have hlb : (padTo r b1).length = r := by rw [padTo_length]; omega
  by_cases h2 : r < 2
  · rw [if_pos h2] at h; cases h
  · rw [if_neg h2] at h
    cases hmb : multi_broadcast ((padTo r a1).take ((padTo r a1).length - 2))
        ((padTo r b1).take ((padTo r b1).length - 2)) with
    | none => rw [hmb] at h; cases h
    | some cpre =>
        rw [hmb] at h
        dsimp only at h
        simp only [Option.some.injEq, Prod.mk.injEq] at h
        obtain ⟨hA, hB, hC⟩ := h
        subst hA; subst hB
        refine ⟨by omega, by rw [hla, hlb], cpre, hmb, ?_, hC.symm⟩
        have := (multi_broadcast_length hmb).1
        rw [List.length_take] at this
        omega

/-- A successful `eval_t` run returns the geometry's `c_shape` together
with one `m×n` tile per batch cell. -/
theorem eval_t_shape_length (aD bD : List Int) (aS bS : List Nat) (g : Geo)
    (hg : Geo.new aS bS = some g) :
    ∃ data, eval_t aD bD aS bS = some (g.c_shape, data) ∧
      data.length = g.c_shape_prefix.prod * (g.m * g.n) := by
  refine ⟨evalData aD bD g, by simp only [eval_t, hg], ?_⟩
  unfold evalData
  rw [length_flatMap_const _ _ (g.m * g.n)
    (fun p _ => mmRun_length _ _ _ _ _ _), indicesOf_length]

theorem rowMajorStrides_length (s : List Nat) :
    (rowMajorStrides s).length = s.length := by
  induction s with
  | nil => rfl
  | cons d t ih => simp [rowMajorStrides, ih]

theorem rowMajorStrides_append (xs ys : List Nat) :
    rowMajorStrides (xs ++ ys) =
      (rowMajorStrides xs).map (· * ys.prod) ++ rowMajorStrides ys := by
  induction xs with
  | nil => simp [rowMajorStrides]
  | cons d t ih =>
      show (t ++ ys).prod :: rowMajorStrides (t ++ ys)
          = t.prod * ys.prod :: ((rowMajorStrides t).map (· * ys.prod)
              ++ rowMajorStrides ys)
      rw [ih, List.prod_append]

theorem rowMajorStrides_pair (x y : Nat) :
    rowMajorStrides [x, y] = [y, 1] := by
  simp [rowMajorStrides]

/-- Every multi-index enumerated by `indicesOf` is pointwise below the
shape. -/
theorem mem_indicesOf {p s : List Nat} (h : p ∈ indicesOf s) :
    List.Forall₂ (· < ·) p s := by
  induction s generalizing p with
  | nil =>
      simp only [indicesOf, List.mem_singleton] at h
      subst h; exact List.Forall₂.nil
  | cons d t ih =>
      simp only [indicesOf, List.mem_flatMap, List.mem_map,
        List.mem_range] at h
      obtain ⟨i, hi, q, hq, rfl⟩ := h
      exact List.Forall₂.cons hi (ih hq)

/-- On an in-range index, the clamped slice offset is the exact offset:
`min p (d - 1) = p` whenever `p < d`, and the trailing axes beyond the
index do not contribute. -/
theorem sliceOffset_clamp (p pre rest strides : List Nat)
    (h : List.Forall₂ (· < ·) p pre) :
    sliceOffset p (pre ++ rest) strides = exactOffset p strides := by
  induction h generalizing strides with
  | nil => cases strides <;> rfl
  | @cons x d p' pre' hxd hrest ih =>
      cases strides with
      | nil => rfl
      | cons s ss =>
          show min x (d - 1) * s + sliceOffset p' (pre' ++ rest) ss
              = x * s + exactOffset p' ss
          rw [Nat.min_eq_left (by omega), ih]

/-- Slicing along all-1 prefix axes (a left-padded broadcast B) always
lands at offset 0. -/
theorem sliceOffset_replicate_one (p rest strides : List Nat) :
    sliceOffset p (List.replicate p.length 1 ++ rest) strides = 0 := by
  induction p generalizing strides with
  | nil => cases strides <;> rfl
  | cons x p' ih =>
      cases strides with
      | nil => rfl
      | cons s ss =>
          show min x (1 - 1) * s + _ = 0
          simp [ih]

theorem exactOffset_append (p s t : List Nat) (h : p.length ≤ s.length) :
    exactOffset p (s ++ t) = exactOffset p s := by
  induction p generalizing s with
  | nil => cases s <;> rfl
  | cons x p' ih =>
      cases s with
      | nil => simp at h
      | cons y s' =>
          show x * y + exactOffset p' (s' ++ t) = x * y + exactOffset p' s'
          rw [ih _ (by simpa using h)]

theorem exactOffset_map_mul (p strides : List Nat) (c : Nat) :
    exactOffset p (strides.map (· * c)) = exactOffset p strides * c := by
  induction p generalizing strides with
  | nil => cases strides <;> simp [exactOffset]
  | cons x p' ih =>
      cases strides with
      | nil => simp [exactOffset]
      | cons s ss =>
          show x * (s * c) + _ = (x * s + _) * c
          rw [ih]
          ring

/-- Splitting `range (d * P)` into `d` consecutive chunks of size `P`. -/
theorem range_mul_flatMap {β : Type} (d P : Nat) (f : Nat → List β) :
    (List.range (d * P)).flatMap f =
      (List.range d).flatMap (fun i => (List.range P).flatMap
        (fun q => f (i * P + q))) := by
  induction d with
  | zero => simp
  | succ d' ih =>
      rw [Nat.succ_mul, List.range_add, List.range_succ,
        List.flatMap_append, List.flatMap_append, ih, List.flatMap_map]
      simp

/-- Row-major enumeration of multi-indices visits the row-major flat
offsets `0, 1, …, s.prod - 1` in order. -/
theorem flatMap_indicesOf {β : Type} (s : List Nat) (f : Nat → List β) :
    (indicesOf s).flatMap (fun p => f (exactOffset p (rowMajorStrides s))) =
      (List.range s.prod).flatMap f := by
  induction s generalizing f with
  | nil =>
      have h1 : List.range (List.prod ([] : List Nat)) = [0] := rfl
      rw [h1]
      simp [indicesOf, exactOffset]
  | cons d t ih =>
      show ((List.range d).flatMap _).flatMap _ = _
      rw [List.flatMap_assoc, List.prod_cons, range_mul_flatMap]
      refine List.flatMap_congr (fun i _ => ?_)
      rw [List.flatMap_map]
      exact ih (fun q => f (i * t.prod + q))

theorem mmRun_shift (m k n q : Nat) (aD : List Int) (B : Nat → Nat → Int) :
    mmRun m k n (packedMat aD (q * (m * k)) k 1) B [] =
      (List.range m).flatMap (fun i => rowBlock aD B k n (q * m + i)) := by
  unfold mmRun rowBlock packedMat applyFused
  refine List.flatMap_congr (fun i _ => ?_)
  simp only [List.foldl_nil]
  refine List.map_congr_left (fun j _ => ?_)
  congr 1
  refine List.map_congr_left (fun l _ => ?_)
  congr 2
  ring

theorem mmRun_rows (M k n : Nat) (aD : List Int) (B : Nat → Nat → Int) :
    mmRun M k n (packedMat aD 0 k 1) B [] =
      (List.range M).flatMap (rowBlock aD B k n) := by
  unfold mmRun rowBlock packedMat applyFused
  refine List.flatMap_congr (fun i _ => ?_)
  simp only [List.foldl_nil]
  refine List.map_congr_left (fun j _ => ?_)
  congr 1
  refine List.map_congr_left (fun l _ => ?_)
  congr 2
  ring

theorem exists_two_suffix (l : List Nat) (h : 2 ≤ l.length) :
    ∃ pre x y, l = pre ++ [x, y] := by
  induction l with
  | nil => simp at h
  | cons a t ih =>
      cases t with
      | nil => simp at h
      | cons b t' =>
          cases t' with
          | nil => exact ⟨[], a, b, rfl⟩
          | cons c t'' =>
              obtain ⟨pre, x, y, hpre⟩ := ih (by simp)
              exact ⟨a :: pre, x, y, by rw [hpre]; rfl⟩

/-- `infer_shapes` against a rank-2 B: B's prefix is padded with 1s,
which broadcast to A's prefix. -/
theorem infer_shapes_b_rank2 (pre : List Nat) (m k k' n : Nat) :
    infer_shapes (pre ++ [m, k]) [k', n] =
      some (pre ++ [m, k], List.replicate pre.length 1 ++ [k', n],
        pre ++ [m, n]) := by
  have la : (pre ++ [m, k]).length = pre.length + 2 := by simp
  have hA : normalizeA (pre ++ [m, k]) = pre ++ [m, k] := by
    simp [normalizeA, la]
  have hB : normalizeB [k', n] = [k', n] := by simp [normalizeB]
  have hmax : max (pre ++ [m, k]).length ([k', n] : List Nat).length
      = pre.length + 2 := by simp [la]
  have hpadA : padTo (pre.length + 2) (pre ++ [m, k]) = pre ++ [m, k] := by
    simp [padTo, la]
  have hpadB : padTo (pre.length + 2) [k', n] =
      List.replicate pre.length 1 ++ [k', n] := by
    simp [padTo]
  have htakeA : (pre ++ [m, k]).take ((pre ++ [m, k]).length - 2) = pre := by
    rw [la, Nat.add_sub_cancel, List.take_left' rfl]
  have hlb2 : (List.replicate pre.length 1 ++ [k', n]).length - 2
      = pre.length := by simp
  have htakeB : (List.replicate pre.length 1 ++ [k', n]).take
      ((List.replicate pre.length 1 ++ [k', n]).length - 2) =
      List.replicate pre.length 1 := by
    rw [hlb2, List.take_left' (List.length_replicate _ _)]
  have hm : (pre ++ [m, k]).getD ((pre ++ [m, k]).length - 2) 1 = m := by
    rw [la, Nat.add_sub_cancel, getD_append_self]; rfl
  have hn : (List.replicate pre.length 1 ++ [k', n]).getD
      ((List.replicate pre.length 1 ++ [k', n]).length - 1) 1 = n := by
    have : (List.replicate pre.length 1 ++ [k', n]).length - 1
        = (List.replicate pre.length 1).length + 1 := by simp
    rw [this, getD_append_self_succ]; rfl
  simp only [infer_shapes, hA, hB, hmax, hpadA, hpadB, htakeA, htakeB, hm, hn]
  have h2 : ¬ pre.length + 2 < 2 := by omega
  rw [if_neg h2, multi_broadcast_replicate_right]

/-- `Geo::new` against a rank-2 B. -/
theorem Geo_new_b_rank2 (pre : List Nat) (m k k' n : Nat) :
    Geo.new (pre ++ [m, k]) [k', n] =
      some { m := m, k := k, n := n,
             bc_a_shape := pre ++ [m, k],
             bc_b_shape := List.replicate pre.length 1 ++ [k', n],
             c_shape := pre ++ [m, n],
             c_shape_prefix := pre } := by
  simp only [Geo.new, infer_shapes_b_rank2]
  have la : (pre ++ [m, k]).length = pre.length + 2 := by simp
  have hm : (pre ++ [m, k]).getD ((pre ++ [m, k]).length - 2) 1 = m := by
    rw [la, Nat.add_sub_cancel, getD_append_self]; rfl
  have hk : (pre ++ [m, k]).getD ((pre ++ [m, k]).length - 1) 1 = k := by
    have : (pre ++ [m, k]).length - 1 = pre.length + 1 := by simp
    rw [this, getD_append_self_succ]; rfl
  have hn : (List.replicate pre.length 1 ++ [k', n]).getD
      ((List.replicate pre.length 1 ++ [k', n]).length - 1) 1 = n := by
    have : (List.replicate pre.length 1 ++ [k', n]).length - 1
        = (List.replicate pre.length 1).length + 1 := by simp
    rw [this, getD_append_self_succ]; rfl
  have hlc : (pre ++ [m, n]).length - 2 = pre.length := by simp
  have htakeC : (pre ++ [m, n]).take ((pre ++ [m, n]).length - 2) = pre := by
    rw [hlc, List.take_left' rfl]
  simp only [Option.some.injEq, Geo.mk.injEq]
  exact ⟨hm, hk, hn, trivial, trivial, trivial, htakeC⟩

theorem getD_append_pair_fst (s : List Nat) (x y c : Nat)
    (hs : s.length = c) : (s ++ [x, y]).getD c 0 = x := by
  rw [← hs, getD_append_self]; rfl

theorem getD_append_pair_snd (s : List Nat) (x y c : Nat)
    (hs : s.length = c) : (s ++ [x, y]).getD (c + 1) 0 = y := by
  rw [← hs, getD_append_self_succ]; rfl

theorem getD_map_range {α : Type} (N : Nat) (f : Nat → α) (d : α) (i : Nat)
    (h : i < N) : ((List.range N).map f).getD i d = f i := by
  rw [List.getD_eq_getElem?_getD, List.getElem?_map, List.getElem?_range h]
  rfl

theorem list_eq_of_getD {xs xs' : List Nat} (hlen : xs.length = xs'.length)
    (h : ∀ j, xs.getD j 0 = xs'.getD j 0) : xs = xs' := by
  refine List.ext_getElem hlen (fun j h1 h2 => ?_)
  have hj := h j
  rwa [List.getD_eq_getElem _ _ h1, List.getD_eq_getElem _ _ h2] at hj

/-- A size-1 axis always selects slice index 0, so two cell indices
agreeing outside axis `i` produce the same clamped slice offset whenever
the sliced shape's dim at `i` is 1. -/
theorem sliceOffset_congr_except (p p' shape strides : List Nat) (i : Nat)
    (hlen : p.length = p'.length)
    (hag : ∀ j, j ≠ i → p.getD j 0 = p'.getD j 0)
    (h1 : shape.getD i 1 = 1) :
    sliceOffset p shape strides = sliceOffset p' shape strides := by
  induction p generalizing p' shape strides i with
  | nil =>
      cases p' with
      | nil => rfl
      | cons _ _ => simp at hlen
  | cons x xs ih =>
      cases p' with
      | nil => simp at hlen
      | cons x' xs' =>
          cases shape with
          | nil => cases strides <;> rfl
          | cons dd ds =>
              cases strides with
              | nil => rfl
              | cons s ss =>
                  show min x (dd - 1) * s + sliceOffset xs ds ss
                      = min x' (dd - 1) * s + sliceOffset xs' ds ss
                  cases i with
                  | zero =>
                      have hdd : dd = 1 := by simpa using h1
                      have hxs : xs = xs' := by
                        refine list_eq_of_getD (by simpa using hlen)
                          (fun j => ?_)
                        have := hag (j + 1) (by omega)
                        simpa using this
                      subst hxs
                      rw [hdd]
                      simp
                  | succ i' =>
                      have hx : x = x' := by
                        have := hag 0 (by omega)
                        simpa using this
                      have hag' : ∀ j, j ≠ i' → xs.getD j 0 = xs'.getD j 0 := by
                        intro j hj
                        have := hag (j + 1) (by omega)
                        simpa using this
                      rw [hx, ih xs' ds ss i' (by simpa using hlen) hag'
                        (by simpa using h1)]

theorem mem_indicesOf_cons {d : Nat} {t : List Nat} {i : Nat} {q : List Nat}
    (hi : i < d) (hq : q ∈ indicesOf t) : (i :: q) ∈ indicesOf (d :: t) := by
  simp only [indicesOf, List.mem_flatMap, List.mem_map, List.mem_range]
  exact ⟨i, hi, q, hq, rfl⟩

theorem mem_indicesOf_cons_inv {d : Nat} {t : List Nat} {p : List Nat}
    (hp : p ∈ indicesOf (d :: t)) :
    ∃ i q, i < d ∧ q ∈ indicesOf t ∧ p = i :: q := by
  simp only [indicesOf, List.mem_flatMap, List.mem_map, List.mem_range] at hp
  obtain ⟨i, hi, q, hq, rfl⟩ := hp
  exact ⟨i, q, hi, hq, rfl⟩

theorem exactOffset_lt_prod {q s : List Nat} (h : q ∈ indicesOf s) :
    exactOffset q (rowMajorStrides s) < s.prod := by
  induction s generalizing q with
  | nil =>
      simp only [indicesOf, List.mem_singleton] at h
      subst h
      show 0 < 1
      omega
  | cons d t ih =>
      obtain ⟨i, q', hi, hq', rfl⟩ := mem_indicesOf_cons_inv h
      show i * t.prod + exactOffset q' (rowMajorStrides t) < (d :: t).prod
      have h1 := ih hq'
      have h2 : (i + 1) * t.prod ≤ d * t.prod :=
        Nat.mul_le_mul_right _ (Nat.succ_le_of_lt hi)
      rw [List.prod_cons]
      calc i * t.prod + exactOffset q' (rowMajorStrides t)
          < i * t.prod + t.prod := by omega
        _ = (i + 1) * t.prod := by ring
        _ ≤ d * t.prod := h2

/-- Indexing into a concatenation of `d` equal-length chunks. -/
theorem flatMap_range_getD {β : Type} (d : Nat) (g : Nat → List β) (C : Nat)
    (hC : ∀ i, i < d → (g i).length = C) (i : Nat) (hi : i < d) (u : Nat)
    (hu : u < C) (dd : β) :
    ((List.range d).flatMap g).getD (i * C + u) dd = (g i).getD u dd := by
  induction d with
  | zero => omega
  | succ e ih =>
      rw [List.range_succ, List.flatMap_append]
      have hlenfst : ((List.range e).flatMap g).length = e * C := by
        rw [length_flatMap_const _ _ C (fun a ha => hC a (by
          simp only [List.mem_range] at ha; omega))]
        simp
      by_cases hie : i < e
      · rw [getD_append_left]
        · exact ih (fun a ha => hC a (by omega)) hie
        · rw [hlenfst]
          calc i * C + u < i * C + C := by omega
            _ = (i + 1) * C := by ring
            _ ≤ e * C := Nat.mul_le_mul_right _ (Nat.succ_le_of_lt hie)
      · have hieq : i = e := by omega
        subst hieq
        rw [List.getD_append_right _ _ _ _ (by rw [hlenfst]; omega)]
        rw [hlenfst, Nat.add_sub_cancel_left]
        show (g i ++ []).getD u dd = (g i).getD u dd
        rw [List.append_nil]

/-- Indexing into the concatenation of per-cell tiles: the tile of cell
`p` starts at flat offset `flatten(p) · L`. -/
theorem indicesOf_flatMap_getD {β : Type} (s : List Nat)
    (f : List Nat → List β) (L : Nat)
    (hL : ∀ p ∈ indicesOf s, (f p).length = L) (p : List Nat)
    (hp : p ∈ indicesOf s) (t : Nat) (ht : t < L) (dd : β) :
    ((indicesOf s).flatMap f).getD
        (exactOffset p (rowMajorStrides s) * L + t) dd = (f p).getD t dd := by
  induction s generalizing f p with
  | nil =>
      simp only [indicesOf, List.mem_singleton] at hp
      subst hp
      show (f [] ++ []).getD (0 * L + t) dd = _
      rw [List.append_nil, Nat.zero_mul, Nat.zero_add]
  | cons d tl ih =>
      obtain ⟨i, q, hi, hq, rfl⟩ := mem_indicesOf_cons_inv hp
      show (((List.range d).flatMap
        (fun i => (indicesOf tl).map (i :: ·))).flatMap f).getD _ dd = _
      rw [List.flatMap_assoc]
      simp only [List.flatMap_map]
      have hlen : ∀ a, a < d →
          ((indicesOf tl).flatMap (fun q => f (a :: q))).length
            = tl.prod * L := by
        intro a ha
        rw [length_flatMap_const _ _ L
          (fun q' hq' => hL _ (mem_indicesOf_cons ha hq')), indicesOf_length]
      have hidx : exactOffset (i :: q) (rowMajorStrides (d :: tl)) * L + t
          = i * (tl.prod * L)
            + (exactOffset q (rowMajorStrides tl) * L + t) := by
        show (i * tl.prod + exactOffset q (rowMajorStrides tl)) * L + t = _
        ring
      rw [hidx, flatMap_range_getD d _ (tl.prod * L) hlen i hi _ (by
        have h1 := exactOffset_lt_prod hq
        calc exactOffset q (rowMajorStrides tl) * L + t
            < exactOffset q (rowMajorStrides tl) * L + L := by omega
          _ = (exactOffset q (rowMajorStrides tl) + 1) * L := by ring
          _ ≤ tl.prod * L := Nat.mul_le_mul_right _ h1) dd]
      exact ih (fun q' => f (i :: q'))
        (fun q' hq' => hL _ (mem_indicesOf_cons hi hq')) q hq

/-- Inversion of `Geo::new`. -/
theorem Geo_new_inv {aS bS : List Nat} {geo : Geo}
    (h : Geo.new aS bS = some geo) :
    ∃ bcA bcB cs, infer_shapes aS bS = some (bcA, bcB, cs) ∧
      geo = { m := bcA.getD (bcA.length - 2) 1
              k := bcA.getD (bcA.length - 1) 1
              n := bcB.getD (bcB.length - 1) 1
              bc_a_shape := bcA, bc_b_shape := bcB, c_shape := cs
              c_shape_prefix := cs.take (cs.length - 2) } := by
  unfold Geo.new at h
  cases hinf : infer_shapes aS bS with
  | none => rw [hinf] at h; cases h
  | some triple =>
      obtain ⟨bcA, bcB, cs⟩ := triple
      rw [hinf] at h
      dsimp only at h
      cases h
      exact ⟨bcA, bcB, cs, rfl, rfl⟩

/-- The batch loop of the generic evaluator against a rank-2 B
collapses to a single matmul over A read as a `[prod(pre)·m, k]`
row-major matrix: each batch cell `p` touches the contiguous A region
at offset `flatten(p)·m·k` and the contiguous C region at
`flatten(p)·m·n`, and B is always sliced at offset 0. -/
theorem evalData_b_rank2 (aD bD : List Int) (pre : List Nat) (m k n : Nat) :
    evalData aD bD
      { m := m, k := k, n := n,
        bc_a_shape := pre ++ [m, k],
        bc_b_shape := List.replicate pre.length 1 ++ [k, n],
        c_shape := pre ++ [m, n],
        c_shape_prefix := pre } =
    mmRun (pre.prod * m) k n (packedMat aD 0 k 1) (packedMat bD 0 n 1) [] := by
  unfold evalData
  dsimp only
  have hr2 : (pre ++ [m, n]).length - 2 = pre.length := by simp
  have hr1 : (pre ++ [m, n]).length - 1 = pre.length + 1 := by simp
  have hprodA : ([m, k] : List Nat).prod = m * k := by simp
  have hprodB : ([k, n] : List Nat).prod = k * n := by simp
  have hAstr : rowMajorStrides (pre ++ [m, k])
      = (rowMajorStrides pre).map (· * (m * k)) ++ [k, 1] := by
    rw [rowMajorStrides_append, rowMajorStrides_pair, hprodA]
  have hBstr : rowMajorStrides (List.replicate pre.length 1 ++ [k, n])
      = (rowMajorStrides (List.replicate pre.length 1)).map (· * (k * n))
          ++ [n, 1] := by
    rw [rowMajorStrides_append, rowMajorStrides_pair, hprodB]
  have hlenA : ((rowMajorStrides pre).map (· * (m * k))).length
      = pre.length := by
    simp [rowMajorStrides_length]
  have hlenB : ((rowMajorStrides (List.replicate pre.length 1)).map
      (· * (k * n))).length = pre.length := by
    simp [rowMajorStrides_length]
  have hgA0 : (rowMajorStrides (pre ++ [m, k])).getD
      ((pre ++ [m, n]).length - 2) 0 = k := by
    rw [hAstr, hr2]
    exact getD_append_pair_fst _ _ _ _ hlenA
  have hgA1 : (rowMajorStrides (pre ++ [m, k])).getD
      ((pre ++ [m, n]).length - 1) 0 = 1 := by
    rw [hAstr, hr1]
    exact getD_append_pair_snd _ _ _ _ hlenA
  have hgB0 : (rowMajorStrides (List.replicate pre.length 1 ++ [k, n])).getD
      ((pre ++ [m, n]).length - 2) 0 = n := by
    rw [hBstr, hr2]
    exact getD_append_pair_fst _ _ _ _ hlenB
  have hgB1 : (rowMajorStrides (List.replicate pre.length 1 ++ [k, n])).getD
      ((pre ++ [m, n]).length - 1) 0 = 1 := by
    rw [hBstr, hr1]
    exact getD_append_pair_snd _ _ _ _ hlenB
  simp only [hgA0, hgA1, hgB0, hgB1]
  have hcell : ∀ p ∈ indicesOf pre,
      mmRun m k n
        (packedMat aD (sliceOffset p (pre ++ [m, k])
          (rowMajorStrides (pre ++ [m, k]))) k 1)
        (packedMat bD (sliceOffset p (List.replicate pre.length 1 ++ [k, n])
          (rowMajorStrides (List.replicate pre.length 1 ++ [k, n]))) n 1)
        [] =
      (List.range m).flatMap (fun i => rowBlock aD (packedMat bD 0 n 1) k n
        (exactOffset p (rowMajorStrides pre) * m + i)) := by
    intro p hp
    have hf := mem_indicesOf hp
    have hplen : p.length = pre.length := hf.length_eq
    have hsA : sliceOffset p (pre ++ [m, k])
        (rowMajorStrides (pre ++ [m, k]))
        = exactOffset p (rowMajorStrides pre) * (m * k) := by
      rw [sliceOffset_clamp _ _ _ _ hf, hAstr,
        exactOffset_append _ _ _ (le_of_eq (by rw [hplen, hlenA])),
        exactOffset_map_mul]
    have hsB : sliceOffset p (List.replicate pre.length 1 ++ [k, n])
        (rowMajorStrides (List.replicate pre.length 1 ++ [k, n])) = 0 := by
      rw [← hplen]
      exact sliceOffset_replicate_one _ _ _
    rw [hsA, hsB, mmRun_shift]
  trans ((List.range pre.prod).flatMap (fun q =>
    (List.range m).flatMap (fun i => rowBlock aD (packedMat bD 0 n 1) k n
      (q * m + i))))
  · rw [← flatMap_indicesOf]
    exact List.flatMap_congr hcell
  · rw [mmRun_rows, range_mul_flatMap]

end Lemmas

section Claims

/-- **C1, counterexample.**  The claim says shape inference (and eval)
fails with a `ShapeError` whenever `a[-1] ≠ b[-2]`; but `infer_shapes`
never compares those dims: on A `[2,3]`, B `[4,5]` (K dims 3 vs 4) it
succeeds with `c_shape = [2,5]`, and `eval` succeeds as well. -/
theorem C1_counterexample_k_mismatch_accepted :
    infer_shapes [2, 3] [4, 5] = some ([2, 3], [4, 5], [2, 5]) ∧
    (eval_t (List.replicate 6 0) (List.replicate 20 0) [2, 3] [4, 5]).isSome
      = true := by
  decide

/-- **C1, amended.**  Shape inference does not check the K dimension:
for operands of rank ≥ 2 with equal-length batch prefixes it succeeds
iff the prefixes broadcast, regardless of the `a[-1]` and `b[-2]` dims;
in particular `eval` on A `[2,3]`, B `[4,5]` succeeds, returning a
tensor of shape `[2,5]` instead of failing with a `ShapeError`. -/
theorem C1_amended_no_k_check (apre bpre : List Nat)
    (h : apre.length = bpre.length) (m k k' n : Nat) (aD bD : List Int) :
    ((infer_shapes (apre ++ [m, k]) (bpre ++ [k', n])).isSome ↔
      (multi_broadcast apre bpre).isSome) ∧
    ∃ d, eval_t aD bD [2, 3] [4, 5] = some ([2, 5], d) := by
  constructor
  · rw [infer_shapes_append h]
    cases multi_broadcast apre bpre <;> simp
  · exact ⟨_, rfl⟩

theorem C1_amended_witness :
    (([] : List Nat).length = ([] : List Nat).length) ∧
    ((infer_shapes ([] ++ [2, 3]) ([] ++ [4, 5])).isSome ↔
      (multi_broadcast [] []).isSome) ∧
    ∃ d, eval_t [] [] [2, 3] [4, 5] = some ([2, 5], d) :=
  ⟨rfl, C1_amended_no_k_check [] [] rfl 2 3 4 5 [] []⟩

/-- **C2.**  For every A of rank ≥ 2 and 2-D B `[k, n]` with matching,
nonzero K (the source divides `a_len` by `k`, so `k = 0` panics and no
`ImplA_SimpleB` instance exists), the collapsed evaluator — one
microkernel call over A read as `[prod(a_shape)/k, k]` row-major against
the pre-packed B — returns exactly the same shape and elements as the
generic evaluator. -/
theorem C2_simple_b_refines_generic (aD bD : List Int) (aShape : List Nat)
    (k n : Nat) (h2 : 2 ≤ aShape.length)
    (hk : aShape.getD (aShape.length - 1) 1 = k) (hk0 : 0 < k) :
    ∃ op, MatMulUnaryImplASimpleB.new aShape bD [k, n] = some op ∧
      eval_t aD bD aShape [k, n] = some (op.eval aD) := by
  obtain ⟨pre, m, y, rfl⟩ := exists_two_suffix aShape h2
  have hyk : y = k := by
    rw [← hk]
    have h1 : (pre ++ [m, y]).length - 1 = pre.length + 1 := by simp
    rw [h1, getD_append_self_succ]
    rfl
  subst hyk
  have hext := Geo_new_b_rank2 pre m y y n
  have hint := Geo_new_b_rank2 [] (pre.prod * m) y y n
  simp only [List.nil_append, List.length_nil, List.replicate_zero] at hint
  have hdiv : pre.prod * (m * y) / y = pre.prod * m := by
    rw [← Nat.mul_assoc]
    exact Nat.mul_div_cancel _ hk0
  have hnew : MatMulUnaryImplASimpleB.new (pre ++ [m, y]) bD [y, n] = some
      { geo := { m := pre.prod * m, k := y, n := n,
                 bc_a_shape := [pre.prod * m, y],
                 bc_b_shape := [y, n],
                 c_shape := [pre.prod * m, n],
                 c_shape_prefix := [] },
        packed_b := packedMat bD 0 n 1,
        a_shape := pre ++ [m, y],
        c_shape := pre ++ [m, n],
        non_linear := [] } := by
    simp [MatMulUnaryImplASimpleB.new, hext, hdiv, hint,
      Nat.pos_iff_ne_zero.mp hk0, rowMajorStrides_pair]
  refine ⟨_, hnew, ?_⟩
  simp only [eval_t, hext, MatMulUnaryImplASimpleB.eval]
  rw [evalData_b_rank2]

theorem C2_witness :
    2 ≤ ([2, 3, 4] : List Nat).length ∧
    ([2, 3, 4] : List Nat).getD (([2, 3, 4] : List Nat).length - 1) 1 = 4 ∧
    0 < 4 ∧
    ∃ op, MatMulUnaryImplASimpleB.new [2, 3, 4]
        ((List.range 20).map Int.ofNat) [4, 5] = some op ∧
      eval_t ((List.range 24).map Int.ofNat) ((List.range 20).map Int.ofNat)
          [2, 3, 4] [4, 5] = some (op.eval ((List.range 24).map Int.ofNat)) :=
  ⟨by decide, by decide, by decide,
    C2_simple_b_refines_generic _ _ [2, 3, 4] 4 5 (by decide) (by decide)
      (by decide)⟩

/-- **C3.**  On every valid input (shape inference succeeds, K dims
match), `eval` returns a tensor whose shape is exactly the inferred
`c_shape`: the broadcast prefix of the rank-normalized operands followed
by `[a[-2], b[-1]]`, with one element per position of that shape. -/
theorem C3_eval_shape_matches_inference (aD bD : List Int)
    (aS bS bcA bcB cs : List Nat)
    (h : infer_shapes aS bS = some (bcA, bcB, cs))
    (_hk : bcA.getD (bcA.length - 1) 1 = bcB.getD (bcB.length - 2) 1) :
    ∃ cpre data,
      multi_broadcast (bcA.take (bcA.length - 2)) (bcB.take (bcB.length - 2))
        = some cpre ∧
      cs = cpre ++ [bcA.getD (bcA.length - 2) 1, bcB.getD (bcB.length - 1) 1] ∧
      eval_t aD bD aS bS = some (cs, data) ∧
      data.length = cs.prod := by
  obtain ⟨h2, hlen, cpre, hmb, hcl, hcs⟩ := infer_shapes_inv h
  have hgeo : Geo.new aS bS = some
      { m := bcA.getD (bcA.length - 2) 1, k := bcA.getD (bcA.length - 1) 1,
        n := bcB.getD (bcB.length - 1) 1, bc_a_shape := bcA, bc_b_shape := bcB,
        c_shape := cs, c_shape_prefix := cs.take (cs.length - 2) } := by
    simp [Geo.new, h]
  obtain ⟨data, he, hl⟩ := eval_t_shape_length aD bD aS bS _ hgeo
  refine ⟨cpre, data, hmb, hcs, he, ?_⟩
  have htake : cs.take (cs.length - 2) = cpre := by
    rw [hcs]
    have hlc : (cpre ++ [bcA.getD (bcA.length - 2) 1,
        bcB.getD (bcB.length - 1) 1]).length - 2 = cpre.length := by simp
    rw [hlc, List.take_left' rfl]
  rw [hl, htake, hcs, List.prod_append]
  simp [Nat.mul_assoc]

theorem C3_witness :
    infer_shapes [2, 2] [2, 2] = some ([2, 2], [2, 2], [2, 2]) ∧
    ∃ cpre data,
      multi_broadcast [] [] = some cpre ∧
      ([2, 2] : List Nat) = cpre ++ [2, 2] ∧
      eval_t [1, 2, 3, 4] [1, 0, 0, 0] [2, 2] [2, 2] = some ([2, 2], data) ∧
      data.length = ([2, 2] : List Nat).prod :=
  ⟨by decide, C3_eval_shape_matches_inference [1, 2, 3, 4] [1, 0, 0, 0]
    [2, 2] [2, 2] [2, 2] [2, 2] [2, 2] (by decide) (by decide)⟩

/-- **C4.**  Fusing a scalar clamp (`ScalarMinMax`, whose `min` field is
the upper bound `hi` fed to the min operation and whose `max` field is
the lower bound `lo` fed to the max operation) appends `Min hi` then
`Max lo`, in that order; in general the fused op's `non_linear` list is
the old list followed by the ops from the fusion table. -/
theorem C4_fuse_clamp_appends (op : MatMulUnaryImplASimpleB) (hi lo : Int) :
    (op.fuse (some (.scalarMinMax hi lo)) =
      some { op with non_linear := op.non_linear ++ [.Min hi, .Max lo] }) ∧
    ∀ (s : SuccOp) (l : List FusedSpec), fusedMicroOp op.geo.n s = some l →
      op.fuse (some s) = some { op with non_linear := op.non_linear ++ l } := by
  constructor
  · rfl
  · intro s l h
    simp [MatMulUnaryImplASimpleB.fuse, h]

theorem C4_witness :
    fusedMicroOp sampleOp.geo.n (SuccOp.scalarMax 5) = some [FusedSpec.Max 5] ∧
    sampleOp.fuse (some (SuccOp.scalarMax 5)) =
      some { sampleOp with non_linear := sampleOp.non_linear ++ [FusedSpec.Max 5] } :=
  ⟨rfl, (C4_fuse_clamp_appends sampleOp 0 0).2 _ _ rfl⟩

/-- **C5.**  When B's rank does not exceed the output rank,
`translation_invariants` reports one invariant per batch axis whose
period is the broadcasted-B dim at that axis (1 on the left-padded
axes), followed by the M axis (`aRank - 2`) with period 1. -/
theorem C5_translation_invariants (bShape : List Nat) (aRank : Nat)
    (hb : bShape.length ≤ aRank) (h2 : 2 ≤ aRank) :
    (translation_invariants bShape aRank).length = aRank - 1 ∧
    (∀ i, i < aRank - 2 →
      (translation_invariants bShape aRank).getD i ⟨0, 0⟩ =
        ⟨i, if i < aRank - bShape.length then 1
            else bShape.getD (i - (aRank - bShape.length)) 1⟩) ∧
    (translation_invariants bShape aRank).getD (aRank - 2) ⟨0, 0⟩ =
      ⟨aRank - 2, 1⟩ := by
  unfold translation_invariants
  rw [if_neg (by omega)]
  refine ⟨by simp; omega, ?_, ?_⟩
  · intro i hi
    rw [getD_map_range_append _ _ _ _ _ hi, getD_replicate_append]
  · rw [getD_map_range_append_last]

theorem C5_witness :
    ([5, 1, 2, 2] : List Nat).length ≤ 4 ∧ 2 ≤ 4 ∧
    ((translation_invariants [5, 1, 2, 2] 4).length = 4 - 1 ∧
    (∀ i, i < 4 - 2 →
      (translation_invariants [5, 1, 2, 2] 4).getD i ⟨0, 0⟩ =
        ⟨i, if i < 4 - ([5, 1, 2, 2] : List Nat).length then 1
            else ([5, 1, 2, 2] : List Nat).getD
              (i - (4 - ([5, 1, 2, 2] : List Nat).length)) 1⟩) ∧
    (translation_invariants [5, 1, 2, 2] 4).getD (4 - 2) ⟨0, 0⟩ =
      ⟨4 - 2, 1⟩) :=
  ⟨by decide, by decide,
    C5_translation_invariants [5, 1, 2, 2] 4 (by decide) (by decide)⟩

/-- **C6.**  `MatMul::cost` reports a single FMA entry whose count is
the product of C's batch-prefix dims times `m`, `k`, `n`. -/
theorem C6_cost_fma_count (aShape bShape bcA bcB cs : List Nat)
    (h : infer_shapes aShape bShape = some (bcA, bcB, cs)) :
    cost aShape bShape = some [(Cost.FMA,
      (cs.take (cs.length - 2)).prod * bcA.getD (bcA.length - 2) 1 *
        bcA.getD (bcA.length - 1) 1 * bcB.getD (bcB.length - 1) 1)] := by
  unfold cost
  rw [h]
  dsimp only
  rw [List.drop_reverse, List.prod_reverse]

theorem C6_witness :
    infer_shapes [3, 1, 2, 3] [1, 4, 3, 5] =
      some ([3, 1, 2, 3], [1, 4, 3, 5], [3, 4, 2, 5]) ∧
    cost [3, 1, 2, 3] [1, 4, 3, 5] = some [(Cost.FMA, 360)] := by
  refine ⟨by decide, ?_⟩
  rw [C6_cost_fma_count [3, 1, 2, 3] [1, 4, 3, 5] [3, 1, 2, 3] [1, 4, 3, 5]
    [3, 4, 2, 5] (by decide)]
  decide

/-- **C7.**  Pulsifying on the innermost axis of A (the K axis,
`axis = rank - 1`) always fails. -/
theorem C7_pulsify_rejects_k_axis (bShape factShape streamShape : List Nat) :
    pulsify bShape (factShape.length - 1) factShape streamShape =
      .error "Can not pulsify MatMulUnaryA on the most inner dimension (k)" := by
  unfold pulsify
  rw [if_pos (Nat.le_refl _)]

/-- **C8.**  In the generic evaluator's batch loop, the A view is
sliced with the clamp rule `min(index, dim - 1)` — so a size-1 A axis
yields the same slice offset for all cell indices along that axis — and
the C view at exactly the cell index receives the product of the
clamp-sliced A and B submatrices, row by row and column by column:
per-cell multiplication with broadcasting by clamping. -/
theorem C8_broadcast_slice_clamp (aD bD : List Int) (aS bS : List Nat)
    (geo : Geo) (hg : Geo.new aS bS = some geo) :
    (∀ i p p', p ∈ indicesOf geo.c_shape_prefix →
      p' ∈ indicesOf geo.c_shape_prefix →
      (∀ j, j ≠ i → p.getD j 0 = p'.getD j 0) →
      geo.bc_a_shape.getD i 1 = 1 →
      sliceOffset p geo.bc_a_shape (rowMajorStrides geo.bc_a_shape)
        = sliceOffset p' geo.bc_a_shape (rowMajorStrides geo.bc_a_shape)) ∧
    eval_t aD bD aS bS = some (geo.c_shape, evalData aD bD geo) ∧
    (∀ p ∈ indicesOf geo.c_shape_prefix, ∀ i < geo.m, ∀ j < geo.n,
      (evalData aD bD geo).getD
          (exactOffset p (rowMajorStrides geo.c_shape)
            + i * ((rowMajorStrides geo.c_shape).getD (geo.c_shape.length - 2) 0)
            + j * ((rowMajorStrides geo.c_shape).getD (geo.c_shape.length - 1) 0)) 0
        = ((List.range geo.k).map (fun l =>
            aD.getD (sliceOffset p geo.bc_a_shape (rowMajorStrides geo.bc_a_shape)
              + i * ((rowMajorStrides geo.bc_a_shape).getD (geo.c_shape.length - 2) 0)
              + l * ((rowMajorStrides geo.bc_a_shape).getD (geo.c_shape.length - 1) 0)) 0
            * bD.getD (sliceOffset p geo.bc_b_shape (rowMajorStrides geo.bc_b_shape)
              + l * ((rowMajorStrides geo.bc_b_shape).getD (geo.c_shape.length - 2) 0)
              + j * ((rowMajorStrides geo.bc_b_shape).getD (geo.c_shape.length - 1) 0)) 0)).sum) := by
  obtain ⟨bcA, bcB, cs, hinf, rfl⟩ := Geo_new_inv hg
  obtain ⟨h2, hblen, cpre, hmb, hcl, hcs⟩ := infer_shapes_inv hinf
  dsimp only
  set M := bcA.getD (bcA.length - 2) 1 with hM
  set K := bcA.getD (bcA.length - 1) 1 with hK
  set N := bcB.getD (bcB.length - 1) 1 with hN
  have hcsl : cs.length = cpre.length + 2 := by rw [hcs]; simp
  have htake : cs.take (cs.length - 2) = cpre := by
    rw [hcs]
    have h1 : (cpre ++ [M, N]).length - 2 = cpre.length := by simp
    rw [h1, List.take_left' rfl]
  refine ⟨?_, ?_, ?_⟩
  · intro i p p' hp hp' hag h1
    exact sliceOffset_congr_except p p' bcA _ i
      ((mem_indicesOf hp).length_eq.trans
        (mem_indicesOf hp').length_eq.symm) hag h1
  · simp only [eval_t, hg]
  · intro p hp i hi j hj
    rw [htake] at hp
    have hplen : p.length = cpre.length := (mem_indicesOf hp).length_eq
    have hprodMN : ([M, N] : List Nat).prod = M * N := by simp
    have hCstr : rowMajorStrides cs
        = (rowMajorStrides cpre).map (· * (M * N)) ++ [N, 1] := by
      rw [hcs, rowMajorStrides_append, rowMajorStrides_pair, hprodMN]
    have hlenC : ((rowMajorStrides cpre).map (· * (M * N))).length
        = cpre.length := by simp [rowMajorStrides_length]
    have hcg0 : (rowMajorStrides cs).getD (cs.length - 2) 0 = N := by
      rw [hCstr, show cs.length - 2 = cpre.length by omega]
      exact getD_append_pair_fst _ _ _ _ hlenC
    have hcg1 : (rowMajorStrides cs).getD (cs.length - 1) 0 = 1 := by
      rw [hCstr, show cs.length - 1 = cpre.length + 1 by omega]
      exact getD_append_pair_snd _ _ _ _ hlenC
    have hco : exactOffset p (rowMajorStrides cs)
        = exactOffset p (rowMajorStrides cpre) * (M * N) := by
      rw [hCstr, exactOffset_append _ _ _ (le_of_eq (hplen.trans hlenC.symm)),
        exactOffset_map_mul]
    rw [hcg0, hcg1, hco]
    have hidx : exactOffset p (rowMajorStrides cpre) * (M * N) + i * N + j * 1
        = exactOffset p (rowMajorStrides cpre) * (M * N) + (i * N + j) := by
      ring
    rw [hidx]
    unfold evalData
    dsimp only
    rw [htake]
    have htlt : i * N + j < M * N := by
      calc i * N + j < i * N + N := by omega
        _ = (i + 1) * N := by ring
        _ ≤ M * N := Nat.mul_le_mul_right _ (Nat.succ_le_of_lt hi)
    rw [indicesOf_flatMap_getD cpre _ (M * N)
      (fun q _ => mmRun_length _ _ _ _ _ _) p hp (i * N + j) htlt 0]
    unfold mmRun
    rw [flatMap_range_getD M _ N (fun a _ => by simp) i hi j hj 0,
      getD_map_range N _ 0 j hj]
    rfl

theorem C8_witness :
    Geo.new [2, 2] [2, 2] = some geo22 ∧
    ((∀ i p p', p ∈ indicesOf geo22.c_shape_prefix →
      p' ∈ indicesOf geo22.c_shape_prefix →
      (∀ j, j ≠ i → p.getD j 0 = p'.getD j 0) →
      geo22.bc_a_shape.getD i 1 = 1 →
      sliceOffset p geo22.bc_a_shape (rowMajorStrides geo22.bc_a_shape)
        = sliceOffset p' geo22.bc_a_shape (rowMajorStrides geo22.bc_a_shape)) ∧
    eval_t [1, 2, 3, 4] [1, 0, 0, 0] [2, 2] [2, 2]
      = some (geo22.c_shape, evalData [1, 2, 3, 4] [1, 0, 0, 0] geo22) ∧
    (∀ p ∈ indicesOf geo22.c_shape_prefix, ∀ i < geo22.m, ∀ j < geo22.n,
      (evalData [1, 2, 3, 4] [1, 0, 0, 0] geo22).getD
          (exactOffset p (rowMajorStrides geo22.c_shape)
            + i * ((rowMajorStrides geo22.c_shape).getD
                (geo22.c_shape.length - 2) 0)
            + j * ((rowMajorStrides geo22.c_shape).getD
                (geo22.c_shape.length - 1) 0)) 0
        = ((List.range geo22.k).map (fun l =>
            ([1, 2, 3, 4] : List Int).getD
              (sliceOffset p geo22.bc_a_shape (rowMajorStrides geo22.bc_a_shape)
              + i * ((rowMajorStrides geo22.bc_a_shape).getD
                  (geo22.c_shape.length - 2) 0)
              + l * ((rowMajorStrides geo22.bc_a_shape).getD
                  (geo22.c_shape.length - 1) 0)) 0
            * ([1, 0, 0, 0] : List Int).getD
              (sliceOffset p geo22.bc_b_shape (rowMajorStrides geo22.bc_b_shape)
              + l * ((rowMajorStrides geo22.bc_b_shape).getD
                  (geo22.c_shape.length - 2) 0)
              + j * ((rowMajorStrides geo22.bc_b_shape).getD
                  (geo22.c_shape.length - 1) 0)) 0)).sum)) :=
  ⟨by decide, C8_broadcast_slice_clamp [1, 2, 3, 4] [1, 0, 0, 0]
    [2, 2] [2, 2] geo22 (by decide)⟩

/-- **C9.**  A successor matching no row of the fusion table — no
successor at all, an op outside the table, or an elementwise
multiply/add whose constant's shape is not exactly `[n]` — produces no
patch (and, `fuse` being total in the model, no error). -/
theorem C9_fuse_no_patch (op : MatMulUnaryImplASimpleB) :
    op.fuse none = none ∧
    op.fuse (some .other) = none ∧
    ∀ (bShape : List Nat) (bData : List Int), bShape ≠ [op.geo.n] →
      op.fuse (some (.unaryMul bShape bData)) = none ∧
      op.fuse (some (.unaryAdd bShape bData)) = none := by
  refine ⟨rfl, rfl, ?_⟩
  intro bShape bData h
  constructor <;> simp [MatMulUnaryImplASimpleB.fuse, fusedMicroOp, h]

theorem C9_witness :
    ([2] : List Nat) ≠ [sampleOp.geo.n] ∧
    sampleOp.fuse (some (SuccOp.unaryMul [2] [1, 1])) = none ∧
    sampleOp.fuse (some (SuccOp.unaryAdd [2] [1, 1])) = none := by
  have h := (C9_fuse_no_patch sampleOp).2.2 [2] [1, 1] (by decide)
  exact ⟨by decide, h.1, h.2⟩

/-- **C10.**  When the stored constant B's rank strictly exceeds the
output rank, `translation_invariants` reports nothing at all. -/
theorem C10_translation_invariants_empty (bShape : List Nat) (aRank : Nat)
    (h : aRank < bShape.length) :
    translation_invariants bShape aRank = [] := by
  unfold translation_invariants
  rw [if_pos h]

theorem C10_witness :
    2 < ([1, 2, 3] : List Nat).length ∧
    translation_invariants [1, 2, 3] 2 = [] :=
  ⟨by decide, C10_translation_invariants_empty [1, 2, 3] 2 (by decide)⟩

end Claims

end MatMulSpec
